import Mathlib

/-!
Shallow embedding of the DavaoWifiLogger session-reconstruction and
range-analytics engine (the MCP-server variant, `DavaoWifiMCPServer`).

Modelling conventions:
* Timestamps are integers counting milliseconds of local time since the
  epoch; a calendar day is an integer day number `d`, whose local range is
  `[d * 86400000, d * 86400000 + 86399000]` (00:00:00 .. 23:59:59), exactly
  as `clampIntervalToDay` constructs `dayStart`/`dayEnd` from a `YYYY-MM-DD`
  string.  `date(ts)` of SQLite is the floor-division day number.
* The JS in-place `Array.prototype.sort` with a comparator is a stable sort
  with respect to the total preorder induced by the comparator; it is
  modelled by `List.insertionSort`, which is likewise stable (an element is
  inserted before the first entry it is `r`-below-or-tied-with, and every
  entry of the sorted tail occurred after it in the input).
* `toLocalISOString` formats a timestamp as `YYYY-MM-DD HH:MM:SS`; on the
  timestamps occurring in one report this formatting is strictly monotone,
  so session fields keep the numeric timestamp and string comparisons of
  formatted times are modelled by integer comparisons.
* `total_hours` is produced by `Number(totalMinutes / 60).toFixed(2)`; the
  summaries here carry the exact total duration in milliseconds
  (`total_ms`), abstracting only the final decimal formatting.
-/

namespace DavaoWifi

/-- A presence interval `[start, end]`, in local-time milliseconds. -/
abbrev Interval := ℤ × ℤ

/-- Local midnight of day `d` (the `T00:00:00` bound used by the code). -/
def dayStartMs (d : ℤ) : ℤ := d * 86400000

/-- Local `23:59:59` of day `d` (the `T23:59:59` bound used by the code). -/
def dayEndMs (d : ℤ) : ℤ := d * 86400000 + 86399000

/-- Embedding of `clampIntervalToDay([start, end], dayStr)`:
`s = max(start, dayStart)`, `e = min(end, dayEnd)`, `null` when `e < s`. -/
def clampIntervalToDay (iv : Interval) (d : ℤ) : Option Interval :=
  let s := max iv.1 (dayStartMs d)
  let e := min iv.2 (dayEndMs d)
  if e < s then none else some (s, e)

/-- The merging loop of `mergeSessions`, carrying the open session
`cur = (curS, curE)`.  The JS gap test `(s - curE) / (1000*60) > gapMinutes`
is the integer comparison `g * 60000 < s - curE`; `if (e > curE) curE = e`
is `curE := max curE e`. -/
def mergeAux (g : ℤ) : Interval → List Interval → List Interval
  | cur, [] => [cur]
  | cur, (s, e) :: rest =>
    if g * 60000 < s - cur.2 then
      cur :: mergeAux g (s, e) rest
    else
      mergeAux g (cur.1, max cur.2 e) rest

/-- The in-place `intervals.sort((a, b) => a[0] - b[0])`: a stable sort by
interval start. -/
def sortByStart (l : List Interval) : List Interval :=
  List.insertionSort (fun a b : Interval => a.1 ≤ b.1) l

/-- Merging an already-sorted interval list: empty input yields `[]`,
otherwise the first interval opens the current session. -/
def mergeGo (g : ℤ) : List Interval → List Interval
  | [] => []
  | first :: rest => mergeAux g first rest

/-- Embedding of `mergeSessions(intervals, gapMinutes)`. -/
def mergeSessions (intervals : List Interval) (g : ℤ) : List Interval :=
  mergeGo g (sortByStart intervals)

/-- Whitespace as matched by the regex `\s` and by `String.prototype.trim`
(the ASCII cases, which cover the data handled here). -/
def isWsChar (c : Char) : Bool :=
  c == ' ' || c == '\t' || c == '\n' || c == '\r'

/-- Removal of the first match of `/\s*\(([^)]+)\)/`: scanning left to
right, the first `'('` that is followed by one or more non-`')'`
characters and then `')'` is removed together with that group and the
whitespace run immediately before it; when no such group exists the
string is unchanged.  `acc` holds the already-scanned prefix reversed. -/
def stripParenGroup (acc : List Char) : List Char → List Char
  | [] => acc.reverse
  | '(' :: cs =>
    let t := cs.takeWhile (fun c => c != ')')
    if t.isEmpty then
      stripParenGroup ('(' :: acc) cs
    else
      match cs.drop t.length with
      | ')' :: rest2 => (acc.dropWhile isWsChar).reverse ++ rest2
      | _ => acc.reverse ++ '(' :: cs
  | c :: cs => stripParenGroup (c :: acc) cs

/-- Embedding of `String.prototype.trim`. -/
def trimChars (l : List Char) : List Char :=
  ((l.dropWhile isWsChar).reverse.dropWhile isWsChar).reverse

/-- Embedding of `normalizeName`: a falsy (empty / null) name becomes
`'Unregistered Device'`, otherwise the first parenthesised group is
removed and the result trimmed. -/
def normalizeName (name : String) : String :=
  if name = "" then "Unregistered Device"
  else String.mk (trimChars (stripParenGroup [] name.data))

/-- ASCII lowercasing of a string, as used by `toLowerCase()` on the
names handled here. -/
def lowerStr (s : String) : String :=
  String.mk (s.data.map Char.toLower)

/-- Whether `needle` occurs at the head of `hay`. -/
def startsWithL : List Char → List Char → Bool
  | _, [] => true
  | [], _ :: _ => false
  | a :: as, b :: bs => a == b && startsWithL as bs

/-- Whether `needle` occurs contiguously inside `hay`
(`String.prototype.includes`). -/
def hasSub : List Char → List Char → Bool
  | [], needle => needle.isEmpty
  | h :: t, needle => startsWithL (h :: t) needle || hasSub t needle

/-- A row of the `logs` table as returned by the queries: `Name`,
`FirstSeen`, and a nullable `LastSeen`. -/
structure LogRow where
  Name : String
  FirstSeen : ℤ
  LastSeen : Option ℤ
  deriving DecidableEq, Repr

/-- The raw event span of a row: `end = LastSeen || FirstSeen`. -/
def rowInterval (r : LogRow) : Interval :=
  (r.FirstSeen, r.LastSeen.getD r.FirstSeen)

/-- The row filter of `getEmployeePresence`:
`normalizeName(r.Name).toLowerCase().includes(employeeName.toLowerCase())`. -/
def matchesTarget (employeeName : String) (r : LogRow) : Bool :=
  hasSub (lowerStr (normalizeName r.Name)).data (lowerStr employeeName).data

/-- The interval-collecting part of the `getEmployeePresence` row loop:
matching rows are clamped to the day and surviving intervals kept in row
order. -/
def collectIntervals (rows : List LogRow) (employeeName : String) (d : ℤ) :
    List Interval :=
  match rows with
  | [] => []
  | r :: rest =>
    if matchesTarget employeeName r then
      match clampIntervalToDay (rowInterval r) d with
      | some c => c :: collectIntervals rest employeeName d
      | none => collectIntervals rest employeeName d
    else collectIntervals rest employeeName d

/-- The `canonicalName = canonicalName || norm` part of the row loop: the
first matching row whose normalized name is non-empty (an empty normalized
name is falsy in JS and does not stick). -/
def canonicalNameOf (rows : List LogRow) (employeeName : String) :
    Option String :=
  match rows with
  | [] => none
  | r :: rest =>
    if matchesTarget employeeName r then
      let norm := normalizeName r.Name
      if norm = "" then canonicalNameOf rest employeeName else some norm
    else canonicalNameOf rest employeeName

/-- Total duration of a session list in milliseconds (the code's
`reduce((acc, [s, e]) => acc + (e - s) / 60000, 0)`, kept in ms). -/
def sessionsTotalMs (l : List Interval) : ℤ :=
  l.foldl (fun acc p => acc + (p.2 - p.1)) 0

/-- The successful result object of `getEmployeePresence`. -/
structure PresenceResult where
  employee : Option String
  date : ℤ
  sessions : List Interval
  total_ms : ℤ
  first_in : Option ℤ
  last_out : Option ℤ
  deriving DecidableEq, Repr

/-- Embedding of `getEmployeePresence`: when no interval survives it
returns the `No logs found for NAME on DATE` text (modelled as
`Sum.inl (employeeName, date)`), otherwise the merged-session result
object. -/
def getEmployeePresence (rows : List LogRow) (employeeName : String)
    (d : ℤ) (g : ℤ) : Sum (String × ℤ) PresenceResult :=
  let intervals := collectIntervals rows employeeName d
  if intervals = [] then Sum.inl (employeeName, d)
  else
    let merged := mergeSessions intervals g
    Sum.inr
      { employee := canonicalNameOf rows employeeName
        date := d
        sessions := merged
        total_ms := sessionsTotalMs merged
        first_in := merged.head?.map Prod.fst
        last_out := merged.getLast?.map Prod.snd }

/-- The exclusion filter of `getDailyReport`:
`norm.toLowerCase().includes('unknown') || ...includes('anonymous')`. -/
def isExcludedName (norm : String) : Bool :=
  hasSub (lowerStr norm).data "unknown".data ||
  hasSub (lowerStr norm).data "anonymous".data

/-- Insertion into a JS `Map` of lists: an existing key gets the value
appended to its list, a new key is added at the end (`Map` preserves
insertion order). -/
def upsertA {β : Type} (m : List (String × List β)) (k : String) (v : β) :
    List (String × List β) :=
  match m with
  | [] => [(k, [v])]
  | (k', vs) :: rest =>
    if k' = k then (k', vs ++ [v]) :: rest else (k', vs) :: upsertA rest k v

/-- One row of the `byName` grouping loop of `getDailyReport`: excluded
names are skipped, a surviving clamped interval is pushed under the
normalized name. -/
def groupStep (d : ℤ) (m : List (String × List Interval)) (r : LogRow) :
    List (String × List Interval) :=
  let norm := normalizeName r.Name
  if isExcludedName norm then m
  else
    match clampIntervalToDay (rowInterval r) d with
    | none => m
    | some c => upsertA m norm c

/-- The `byName` grouping loop of `getDailyReport`. -/
def groupRows (rows : List LogRow) (d : ℤ) : List (String × List Interval) :=
  rows.foldl (groupStep d) []

/-- One employee entry of the daily report. -/
structure EmployeeDay where
  name : String
  first_in : Option ℤ
  last_out : Option ℤ
  sessions : List Interval
  total_ms : ℤ
  deriving DecidableEq, Repr

/-- Building one report entry from a name group: merge, then
`first_in = sessions[0]?.in_time || null` and
`last_out = sessions[last]?.out_time || null`. -/
def mkEmployeeDay (g : ℤ) (p : String × List Interval) : EmployeeDay :=
  let merged := mergeSessions p.2 g
  { name := p.1
    first_in := merged.head?.map Prod.fst
    last_out := merged.getLast?.map Prod.snd
    sessions := merged
    total_ms := sessionsTotalMs merged }

/-- The comparator key of the report sort,
`(a.first_in || '').localeCompare(b.first_in || '')`: a missing
`first_in` is the empty string and compares below every formatted
timestamp. -/
def firstInLeB (a b : Option ℤ) : Bool :=
  match a, b with
  | none, _ => true
  | some _, none => false
  | some x, some y => x ≤ y

/-- The result object of `getDailyReport`. -/
structure DailyReport where
  date : ℤ
  total_employees : ℕ
  employees : List EmployeeDay
  deriving DecidableEq, Repr

/-- Embedding of `getDailyReport` on the rows delivered by its query
(which orders them by `Name, FirstSeen`): group by normalized name,
build an entry per group, stably sort by the `first_in` key. -/
def getDailyReport (rows : List LogRow) (d : ℤ) (g : ℤ) : DailyReport :=
  let employees := (groupRows rows d).map (mkEmployeeDay g)
  let sorted :=
    List.insertionSort
      (fun a b : EmployeeDay => firstInLeB a.first_in b.first_in = true)
      employees
  { date := d, total_employees := sorted.length, employees := sorted }

/-- SQLite `date(ts)` of a local-time millisecond stamp. -/
def dateOfMs (t : ℤ) : ℤ := t.fdiv 86400000

/-- The daily query's `WHERE date(FirstSeen) = ? OR date(LastSeen) = ?`
(a NULL `LastSeen` satisfies neither disjunct). -/
def onDay (d : ℤ) (r : LogRow) : Bool :=
  dateOfMs r.FirstSeen == d ||
  (match r.LastSeen with
   | some l => dateOfMs l == d
   | none => false)

/-- Bytewise (`BINARY` collation) text order on the ASCII names used
here. -/
def lexLeChars : List Char → List Char → Bool
  | [], _ => true
  | _ :: _, [] => false
  | a :: as, b :: bs => if a = b then lexLeChars as bs else a < b

/-- The daily query's `ORDER BY Name, FirstSeen` (timestamp text of equal
format compares like its numeric value). -/
def rowQueryLe (a b : LogRow) : Bool :=
  if a.Name = b.Name then a.FirstSeen ≤ b.FirstSeen
  else lexLeChars a.Name.data b.Name.data

/-- The rows the daily query returns for day `d` out of the whole table. -/
def queryDay (table : List LogRow) (d : ℤ) : List LogRow :=
  List.insertionSort (fun a b : LogRow => rowQueryLe a b = true)
    (table.filter (onDay d))

/-- One per-day entry accumulated for an employee by `presenceAnalytics`. -/
structure DayEntry where
  date : ℤ
  first_in : Option ℤ
  last_out : Option ℤ
  total_ms : ℤ
  deriving DecidableEq, Repr

/-- One per-employee summary of `presenceAnalytics`. -/
structure RangeEmployee where
  name : String
  days_present : ℕ
  total_ms : ℤ
  days : List DayEntry
  deriving DecidableEq, Repr

/-- The result object of the `presenceAnalytics` tool handler. -/
structure AnalyticsResult where
  startDate : ℤ
  endDate : ℤ
  employees : List RangeEmployee
  deriving DecidableEq, Repr

/-- The day loop bound `for (d = start; d <= end; d.setDate(+1))`: the
inclusive day range, empty when `start > end`. -/
def rangeDays (s e : ℤ) : List ℤ :=
  (List.range (e + 1 - s).toNat).map (fun i => s + i)

/-- One day of the `presenceAnalytics` loop: the day's report entries are
pushed into the `byName` map in report order. -/
def analyticsDayStep (table : List LogRow) (g : ℤ)
    (m : List (String × List DayEntry)) (d : ℤ) :
    List (String × List DayEntry) :=
  (getDailyReport (queryDay table d) d g).employees.foldl
    (fun m' e =>
      upsertA m' e.name
        { date := d, first_in := e.first_in, last_out := e.last_out
          total_ms := e.total_ms })
    m

/-- The per-day accumulation of `presenceAnalytics` into the `byName`
map. -/
def accumulateDays (table : List LogRow) (g : ℤ) (days : List ℤ) :
    List (String × List DayEntry) :=
  days.foldl (analyticsDayStep table g) []

/-- Embedding of the `presenceAnalytics` tool handler. -/
def presenceAnalytics (table : List LogRow) (s e g : ℤ) : AnalyticsResult :=
  let m := accumulateDays table g (rangeDays s e)
  { startDate := s
    endDate := e
    employees :=
      m.map (fun p =>
        { name := p.1
          days_present := p.2.length
          total_ms := p.2.foldl (fun acc q => acc + q.total_ms) 0
          days := p.2 }) }

/-! Definitions used only to state claims (well-formedness of intervals,
the spec's reference orderings, and auxiliary closures of the folds). -/

/-- Interval well-formedness, the `start ≤ end` invariant of the spec's
`Interval` type. -/
def WFIntervals (l : List Interval) : Prop := ∀ p ∈ l, p.1 ≤ p.2

/-- The spec's two-key order: start ascending, ties broken by end
ascending. -/
def twoKeyLe (a b : Interval) : Prop :=
  a.1 < b.1 ∨ (a.1 = b.1 ∧ a.2 ≤ b.2)

instance : DecidableRel twoKeyLe := fun a b => by
  unfold twoKeyLe; infer_instance

/-- Modelled from the spec (§4.2 Algorithm): sort intervals by start
ascending with ties broken by end ascending. -/
def sortTwoKey (l : List Interval) : List Interval :=
  List.insertionSort twoKeyLe l

/-- Modelled from the spec (§4.2): the reference merge that applies the
two-key sort before folding. -/
def mergeSessionsTwoKey (l : List Interval) (g : ℤ) : List Interval :=
  mergeGo g (sortTwoKey l)

/-- A raw event whose `lastObservedAt` precedes its `observedAt`
(`LastSeen` present and earlier than `FirstSeen`). -/
def isMalformedRow (r : LogRow) : Bool :=
  match r.LastSeen with
  | some l => decide (l < r.FirstSeen)
  | none => false

/-- The running maximum of the session end over a list of intervals,
starting from `c`. -/
def blockMax (c : ℤ) (b : List Interval) : ℤ :=
  b.foldl (fun m p => max m p.2) c

/-- Membership test for the equal-start block at start `s`. -/
def pEq (s : ℤ) (q : Interval) : Bool := decide (q.1 = s)

/-- Membership test for the remainder after the equal-start block. -/
def pNe (s : ℤ) (q : Interval) : Bool := !decide (q.1 = s)

/-- The report order stated by the spec for the daily report: `firstIn`
ascending with missing `firstIn` last, ties broken by name ascending. -/
def claimReportLeB (a b : EmployeeDay) : Bool :=
  match a.first_in, b.first_in with
  | some x, some y =>
    decide (x < y) || (decide (x = y) && lexLeChars a.name.data b.name.data)
  | some _, none => true
  | none, some _ => false
  | none, none => lexLeChars a.name.data b.name.data

/-- Name order on range summaries, for the spec's `sorted by identity
name ascending`. -/
def nameLeB (a b : RangeEmployee) : Bool :=
  lexLeChars a.name.data b.name.data

/-- Appending a key if it has not been seen yet. -/
def insFirst (acc : List String) (k : String) : List String :=
  if k ∈ acc then acc else acc ++ [k]

/-- First-occurrence deduplication of a list of names. -/
def firstOccur (l : List String) : List String := l.foldl insFirst []

/-- The names of one day's report entries, in report order. -/
def dailyNames (table : List LogRow) (g d : ℤ) : List String :=
  (getDailyReport (queryDay table d) d g).employees.map (fun e => e.name)

/-- The concatenation of the daily report names over a day list. -/
def namesOfDays (table : List LogRow) (g : ℤ) : List ℤ → List String
  | [] => []
  | d :: ds => dailyNames table g d ++ namesOfDays table g ds

/-- All report names over a date range, day by day, in report order. -/
def rangeNames (table : List LogRow) (s e g : ℤ) : List String :=
  namesOfDays table g (rangeDays s e)

/-- The single report entry of the one-row witness day. -/
def sampleEmployeeDay : EmployeeDay :=
  { name := "A", first_in := some 36000000, last_out := some 36000000,
    sessions := [(36000000, 36000000)], total_ms := 0 }

/-! Helper lemmas about the sorts and the grouping fold. -/

lemma sortByStart_perm (l : List Interval) : (sortByStart l).Perm l :=
  List.perm_insertionSort _ l

lemma sortByStart_sorted (l : List Interval) :
    List.Pairwise (fun a b : Interval => a.1 ≤ b.1) (sortByStart l) := by
  haveI : IsTotal Interval (fun a b : Interval => a.1 ≤ b.1) :=
    ⟨fun a b => le_total a.1 b.1⟩
  haveI : IsTrans Interval (fun a b : Interval => a.1 ≤ b.1) :=
    ⟨fun _ _ _ h₁ h₂ => le_trans h₁ h₂⟩
  exact List.sorted_insertionSort _ l

lemma sortTwoKey_perm (l : List Interval) : (sortTwoKey l).Perm l :=
  List.perm_insertionSort _ l

lemma sortTwoKey_sorted (l : List Interval) :
    List.Pairwise twoKeyLe (sortTwoKey l) := by
  haveI : IsTotal Interval twoKeyLe := by
    constructor
    intro a b
    rcases lt_trichotomy a.1 b.1 with h | h | h
    · exact Or.inl (Or.inl h)
    · rcases le_total a.2 b.2 with h2 | h2
      · exact Or.inl (Or.inr ⟨h, h2⟩)
      · exact Or.inr (Or.inr ⟨h.symm, h2⟩)
    · exact Or.inr (Or.inl h)
  haveI : IsTrans Interval twoKeyLe := by
    constructor
    intro a b c hab hbc
    rcases hab with h | ⟨h, h2⟩ <;> rcases hbc with h' | ⟨h', h2'⟩
    · exact Or.inl (h.trans h')
    · exact Or.inl (h'.symm ▸ h)
    · exact Or.inl (h ▸ h')
    · exact Or.inr ⟨h.trans h', h2.trans h2'⟩
  exact List.sorted_insertionSort _ l

lemma wf_of_perm {l₁ l₂ : List Interval} (h : l₁.Perm l₂)
    (hwf : WFIntervals l₁) : WFIntervals l₂ :=
  fun p hp => hwf p (h.mem_iff.mpr hp)

/-- C8: clamping an already-clamped interval to the same day returns it
unchanged. -/
theorem clampIntervalToDay_idempotent (iv : Interval) (d : ℤ) (c : Interval)
    (h : clampIntervalToDay iv d = some c) :
    clampIntervalToDay c d = some c := by
  simp only [clampIntervalToDay] at h ⊢
  by_cases hlt : min iv.2 (dayEndMs d) < max iv.1 (dayStartMs d)
  · rw [if_pos hlt] at h
    exact absurd h (by simp)
  · rw [if_neg hlt] at h
    have hc : (max iv.1 (dayStartMs d), min iv.2 (dayEndMs d)) = c :=
      Option.some.inj h
    have hc1 : c.1 = max iv.1 (dayStartMs d) := by rw [← hc]
    have hc2 : c.2 = min iv.2 (dayEndMs d) := by rw [← hc]
    have h1 : max c.1 (dayStartMs d) = c.1 := by
      rw [hc1]; exact max_eq_left (le_max_right _ _)
    have h2 : min c.2 (dayEndMs d) = c.2 := by
      rw [hc2]; exact min_eq_left (min_le_right _ _)
    rw [h1, h2, if_neg (by rw [hc1, hc2]; exact hlt)]

/-- Witness for the idempotence theorem at a concrete clamped interval. -/
theorem clampIntervalToDay_idempotent_witness :
    clampIntervalToDay (10, 20) 0 = some (10, 20) ∧
      clampIntervalToDay (10, 20) 0 = some (10, 20) :=
  ⟨by decide, clampIntervalToDay_idempotent (10, 20) 0 (10, 20) (by decide)⟩

/-- Invariants of the merging loop on a start-sorted, well-formed input:
the output is nonempty, opens at the current session's start, its
elements start at or after it, are well-formed, pairwise disjoint,
sorted by start, and adjacent outputs are separated by more than the gap
tolerance. -/
lemma mergeAux_spec (g : ℤ) (hg : 0 ≤ g) :
    ∀ (l : List Interval) (cur : Interval),
      List.Pairwise (fun a b : Interval => a.1 ≤ b.1) l →
      WFIntervals l → cur.1 ≤ cur.2 → (∀ p ∈ l, cur.1 ≤ p.1) →
      mergeAux g cur l ≠ [] ∧
      (mergeAux g cur l).head?.map Prod.fst = some cur.1 ∧
      (∀ b ∈ mergeAux g cur l, cur.1 ≤ b.1) ∧
      WFIntervals (mergeAux g cur l) ∧
      List.Pairwise (fun a b : Interval => a.2 < b.1) (mergeAux g cur l) ∧
      List.Pairwise (fun a b : Interval => a.1 ≤ b.1) (mergeAux g cur l) ∧
      List.Chain' (fun a b : Interval => g * 60000 < b.1 - a.2)
        (mergeAux g cur l) := by
  intro l
  induction l with
  | nil =>
    intro cur _ _ hcur _
    refine ⟨by simp [mergeAux], by simp [mergeAux], ?_, ?_, ?_, ?_, ?_⟩
    · intro b hb
      simp [mergeAux] at hb
      subst hb
      exact le_refl _
    · intro p hp
      simp [mergeAux] at hp
      subst hp
      exact hcur
    · simp [mergeAux]
    · simp [mergeAux]
    · simp [mergeAux]
  | cons hd tl ih =>
    intro cur hsort hwf hcur hmin
    obtain ⟨s, e⟩ := hd
    have hse : s ≤ e := hwf (s, e) (List.mem_cons_self _ _)
    have hhead : ∀ p ∈ tl, s ≤ p.1 := by
      intro p hp
      exact (List.pairwise_cons.mp hsort).1 p hp
    have hsort' := (List.pairwise_cons.mp hsort).2
    have hwf' : WFIntervals tl := fun p hp => hwf p (List.mem_cons_of_mem _ hp)
    have hcs : cur.1 ≤ s := hmin (s, e) (List.mem_cons_self _ _)
    by_cases hgap : g * 60000 < s - cur.2
    · obtain ⟨ih1, ih2, ih3, ih4, ih5, ih6, ih7⟩ :=
        ih (s, e) hsort' hwf' hse hhead
      have hout : mergeAux g cur ((s, e) :: tl) = cur :: mergeAux g (s, e) tl := by
        simp [mergeAux, hgap]
      rw [hout]
      have hcur2s : cur.2 < s := by omega
      refine ⟨by simp, by simp, ?_, ?_, ?_, ?_, ?_⟩
      · intro b hb
        rcases List.mem_cons.mp hb with rfl | hb
        · exact le_refl _
        · exact le_trans hcs (ih3 b hb)
      · intro p hp
        rcases List.mem_cons.mp hp with rfl | hp
        · exact hcur
        · exact ih4 p hp
      · refine List.pairwise_cons.mpr ⟨?_, ih5⟩
        intro b hb
        exact lt_of_lt_of_le hcur2s (ih3 b hb)
      · refine List.pairwise_cons.mpr ⟨?_, ih6⟩
        intro b hb
        exact le_trans hcs (ih3 b hb)
      · refine List.chain'_cons'.mpr ⟨?_, ih7⟩
        intro y hy
        have hy1 : y.1 = s := by
          cases hh : (mergeAux g (s, e) tl).head? with
          | none =>
            rw [hh] at hy
            cases hy
          | some z =>
            rw [hh] at hy ih2
            simp only [Option.mem_def, Option.some.injEq] at hy
            simp only [Option.map_some', Option.some.injEq] at ih2
            rw [hy] at ih2
            exact ih2
        omega
    · have hout : mergeAux g cur ((s, e) :: tl) =
          mergeAux g (cur.1, max cur.2 e) tl := by
        simp [mergeAux, hgap]
      have hcur' : (cur.1, max cur.2 e).1 ≤ (cur.1, max cur.2 e).2 :=
        le_trans hcur (le_max_left _ _)
      have hmin' : ∀ p ∈ tl, (cur.1, max cur.2 e).1 ≤ p.1 :=
        fun p hp => le_trans hcs (hhead p hp)
      rw [hout]
      exact ih (cur.1, max cur.2 e) hsort' hwf' hcur' hmin'

/-- C3: for well-formed intervals and a positive gap tolerance the merged
sessions are pairwise disjoint, sorted by start ascending, and adjacent
sessions are separated by more than `gapMinutes` (maximality). -/
theorem mergeSessions_disjoint_sorted_maximal (l : List Interval) (g : ℤ)
    (hg : 0 < g) (hwf : WFIntervals l) :
    List.Pairwise (fun a b : Interval => a.2 < b.1) (mergeSessions l g) ∧
    List.Pairwise (fun a b : Interval => a.1 ≤ b.1) (mergeSessions l g) ∧
    List.Chain' (fun a b : Interval => g * 60000 < b.1 - a.2)
      (mergeSessions l g) := by
  have hwfs : WFIntervals (sortByStart l) :=
    wf_of_perm (sortByStart_perm l).symm hwf
  have hsort := sortByStart_sorted l
  unfold mergeSessions
  cases hs : sortByStart l with
  | nil => simp [mergeGo]
  | cons first rest =>
    rw [hs] at hwfs hsort
    have h1 := (List.pairwise_cons.mp hsort).1
    have h2 := (List.pairwise_cons.mp hsort).2
    have hf : first.1 ≤ first.2 := hwfs first (List.mem_cons_self _ _)
    have hr : WFIntervals rest := fun p hp => hwfs p (List.mem_cons_of_mem _ hp)
    have spec := mergeAux_spec g (le_of_lt hg) rest first h2 hr hf h1
    simp only [mergeGo]
    exact ⟨spec.2.2.2.2.1, spec.2.2.2.2.2.1, spec.2.2.2.2.2.2⟩

/-- Witness for the merge invariants at a concrete two-session input. -/
theorem mergeSessions_disjoint_sorted_maximal_witness :
    (0 : ℤ) < 30 ∧
    WFIntervals [((0 : ℤ), (60000 : ℤ)), (7200000, 7260000)] ∧
    (List.Pairwise (fun a b : Interval => a.2 < b.1)
        (mergeSessions [(0, 60000), (7200000, 7260000)] 30) ∧
      List.Pairwise (fun a b : Interval => a.1 ≤ b.1)
        (mergeSessions [(0, 60000), (7200000, 7260000)] 30) ∧
      List.Chain' (fun a b : Interval => 30 * 60000 < b.1 - a.2)
        (mergeSessions [(0, 60000), (7200000, 7260000)] 30)) :=
  ⟨by decide, by unfold WFIntervals; decide,
    mergeSessions_disjoint_sorted_maximal [(0, 60000), (7200000, 7260000)] 30
      (by decide) (by unfold WFIntervals; decide)⟩

lemma mergeAux_ne_nil (g : ℤ) :
    ∀ (l : List Interval) (cur : Interval), mergeAux g cur l ≠ [] := by
  intro l
  induction l with
  | nil => intro cur; simp [mergeAux]
  | cons hd tl ih =>
    intro cur
    obtain ⟨s, e⟩ := hd
    by_cases hgap : g * 60000 < s - cur.2
    · simp [mergeAux, hgap]
    · simp only [mergeAux, if_neg hgap]
      exact ih _

lemma blockMax_perm (c : ℤ) {b₁ b₂ : List Interval} (h : b₁.Perm b₂) :
    blockMax c b₁ = blockMax c b₂ := by
  haveI : RightCommutative (fun (m : ℤ) (p : Interval) => max m p.2) :=
    ⟨fun b a₁ a₂ => by omega⟩
  exact List.Perm.foldl_eq h c

lemma blockMax_head (s e₀ : ℤ) (bs : List Interval) (h : s ≤ e₀) :
    blockMax s ((s, e₀) :: bs) = blockMax e₀ bs := by
  show List.foldl _ (max s e₀) bs = List.foldl _ e₀ bs
  rw [max_eq_right h]

lemma mergeAux_absorb (g : ℤ) :
    ∀ (bs : List Interval) (s : ℤ) (cur : Interval) (rest : List Interval),
      (∀ p ∈ bs, p.1 = s) → s - cur.2 ≤ g * 60000 →
      mergeAux g cur (bs ++ rest) = mergeAux g (cur.1, blockMax cur.2 bs) rest := by
  intro bs
  induction bs with
  | nil =>
    intro s cur rest _ _
    simp [blockMax]
  | cons q bs' ih =>
    intro s cur rest hstart hle
    obtain ⟨s', e⟩ := q
    have hs' : s' = s := hstart (s', e) (List.mem_cons_self _ _)
    subst hs'
    have hnot : ¬ g * 60000 < s' - cur.2 := by omega
    rw [List.cons_append]
    have h1 : mergeAux g cur ((s', e) :: (bs' ++ rest)) =
        mergeAux g (cur.1, max cur.2 e) (bs' ++ rest) := by
      simp [mergeAux, hnot]
    rw [h1, ih s' (cur.1, max cur.2 e) rest
      (fun p hp => hstart p (List.mem_cons_of_mem _ hp))
      (by have := le_max_left cur.2 e; omega)]
    rfl

lemma mergeAux_block (g : ℤ) (hg : 0 ≤ g) (s e₀ : ℤ) (bs rest : List Interval)
    (cur : Interval) (hbs : ∀ p ∈ bs, p.1 = s) (he₀ : s ≤ e₀) :
    mergeAux g cur (((s, e₀) :: bs) ++ rest) =
      if g * 60000 < s - cur.2 then
        cur :: mergeAux g (s, blockMax e₀ bs) rest
      else
        mergeAux g (cur.1, blockMax cur.2 ((s, e₀) :: bs)) rest := by
  by_cases hc : g * 60000 < s - cur.2
  · rw [if_pos hc, List.cons_append]
    have h1 : mergeAux g cur ((s, e₀) :: (bs ++ rest)) =
        cur :: mergeAux g (s, e₀) (bs ++ rest) := by
      simp [mergeAux, hc]
    rw [h1, mergeAux_absorb g bs s (s, e₀) rest hbs (by omega)]
  · rw [if_neg hc]
    refine mergeAux_absorb g ((s, e₀) :: bs) s cur rest ?_ (by omega)
    intro p hp
    rcases List.mem_cons.mp hp with rfl | hp
    · rfl
    · exact hbs p hp

lemma mem_filter_pEq_start {s : ℤ} {l : List Interval} :
    ∀ p ∈ l.filter (pEq s), p.1 = s := by
  intro p hp
  have := (List.mem_filter.mp hp).2
  simpa [pEq] using this

lemma sorted_filter_decomp (s : ℤ) :
    ∀ (l : List Interval),
      List.Pairwise (fun a b : Interval => a.1 ≤ b.1) l →
      (∀ p ∈ l, s ≤ p.1) →
      l = l.filter (pEq s) ++ l.filter (pNe s) := by
  intro l
  induction l with
  | nil => intro _ _; rfl
  | cons h t ih =>
    intro hsort hmin
    by_cases hh : h.1 = s
    · have ht := ih (List.pairwise_cons.mp hsort).2
        (fun p hp => hmin p (List.mem_cons_of_mem _ hp))
      have e1 : List.filter (pEq s) (h :: t) = h :: List.filter (pEq s) t := by
        rw [List.filter_cons, if_pos (by simp [pEq, hh])]
      have e2 : List.filter (pNe s) (h :: t) = List.filter (pNe s) t := by
        rw [List.filter_cons, if_neg (by simp [pNe, hh])]
      rw [e1, e2, List.cons_append, ← ht]
    · have e1 : List.filter (pEq s) (h :: t) = [] := by
        rw [List.filter_eq_nil_iff]
        intro p hp
        rcases List.mem_cons.mp hp with rfl | hp
        · simp [pEq, hh]
        · have h1 : h.1 ≤ p.1 := (List.pairwise_cons.mp hsort).1 p hp
          have h2 : s ≤ h.1 := hmin h (List.mem_cons_self _ _)
          have : p.1 ≠ s := by omega
          simp [pEq, this]
      have e2 : List.filter (pNe s) (h :: t) = h :: t := by
        rw [List.filter_eq_self]
        intro p hp
        have hps : p.1 ≠ s := by
          rcases List.mem_cons.mp hp with rfl | hp'
          · exact hh
          · have h1 : h.1 ≤ p.1 := (List.pairwise_cons.mp hsort).1 p hp'
            have h2 : s ≤ h.1 := hmin h (List.mem_cons_self _ _)
            omega
        simp [pNe, hps]
      rw [e1, e2, List.nil_append]

/-- On start-sorted well-formed inputs, the merging loop gives the same
result for any two permutations: ties at an equal start are absorbed into
one block whose contribution is its maximal end, which is order
insensitive. -/
lemma mergeAux_perm_sorted (g : ℤ) (hg : 0 ≤ g) :
    ∀ (n : ℕ) (l₁ l₂ : List Interval) (cur : Interval),
      l₁.length ≤ n → l₁.Perm l₂ →
      List.Pairwise (fun a b : Interval => a.1 ≤ b.1) l₁ →
      List.Pairwise (fun a b : Interval => a.1 ≤ b.1) l₂ →
      WFIntervals l₁ →
      mergeAux g cur l₁ = mergeAux g cur l₂ := by
  intro n
  induction n with
  | zero =>
    intro l₁ l₂ cur hlen hperm _ _ _
    have h1 : l₁ = [] := List.length_eq_zero.mp (Nat.le_zero.mp hlen)
    subst h1
    rw [hperm.symm.eq_nil]
  | succ n ihn =>
    intro l₁ l₂ cur hlen hperm hs₁ hs₂ hwf
    cases l₁ with
    | nil => rw [hperm.symm.eq_nil]
    | cons h₁ t₁ =>
      have hmin₁ : ∀ p ∈ h₁ :: t₁, h₁.1 ≤ p.1 := by
        intro p hp
        rcases List.mem_cons.mp hp with rfl | hp
        · exact le_refl _
        · exact (List.pairwise_cons.mp hs₁).1 p hp
      have hmin₂ : ∀ p ∈ l₂, h₁.1 ≤ p.1 := fun p hp =>
        hmin₁ p (hperm.mem_iff.mpr hp)
      have hd₁ := sorted_filter_decomp h₁.1 (h₁ :: t₁) hs₁ hmin₁
      have hd₂ := sorted_filter_decomp h₁.1 l₂ hs₂ hmin₂
      have hbperm := hperm.filter (pEq h₁.1)
      have hrperm := hperm.filter (pNe h₁.1)
      have hwf₂ : WFIntervals l₂ := wf_of_perm hperm hwf
      have hmem₁ : h₁ ∈ (h₁ :: t₁).filter (pEq h₁.1) := by
        rw [List.mem_filter]
        exact ⟨List.mem_cons_self _ _, by simp [pEq]⟩
      have hrec : ∀ cur' : Interval,
          mergeAux g cur' ((h₁ :: t₁).filter (pNe h₁.1)) =
            mergeAux g cur' (l₂.filter (pNe h₁.1)) := by
        intro cur'
        have hr₁eq : (h₁ :: t₁).filter (pNe h₁.1) = t₁.filter (pNe h₁.1) := by
          rw [List.filter_cons, if_neg (by simp [pNe])]
        have hlenr : ((h₁ :: t₁).filter (pNe h₁.1)).length ≤ n := by
          rw [hr₁eq]
          have h1 : (t₁.filter (pNe h₁.1)).length ≤ t₁.length :=
            List.length_filter_le _ _
          have h2 : t₁.length ≤ n := by
            simp only [List.length_cons] at hlen
            omega
          omega
        refine ihn _ _ cur' hlenr hrperm ?_ ?_ ?_
        · exact List.Pairwise.sublist (List.filter_sublist _) hs₁
        · exact List.Pairwise.sublist (List.filter_sublist _) hs₂
        · intro p hp
          exact hwf p (List.mem_filter.mp hp).1
      cases hb₁ : (h₁ :: t₁).filter (pEq h₁.1) with
      | nil =>
        rw [hb₁] at hmem₁
        cases hmem₁
      | cons q₁ qs₁ =>
        cases hb₂ : l₂.filter (pEq h₁.1) with
        | nil =>
          rw [hb₁, hb₂] at hbperm
          exact absurd hbperm.eq_nil (List.cons_ne_nil _ _)
        | cons q₂ qs₂ =>
          rw [hb₁, hb₂] at hbperm
          have hq₁ : q₁.1 = h₁.1 :=
            mem_filter_pEq_start q₁ (by rw [hb₁]; exact List.mem_cons_self _ _)
          have hq₂ : q₂.1 = h₁.1 :=
            mem_filter_pEq_start q₂ (by rw [hb₂]; exact List.mem_cons_self _ _)
          have hqs₁ : ∀ p ∈ qs₁, p.1 = h₁.1 := fun p hp =>
            mem_filter_pEq_start p (by rw [hb₁]; exact List.mem_cons_of_mem _ hp)
          have hqs₂ : ∀ p ∈ qs₂, p.1 = h₁.1 := fun p hp =>
            mem_filter_pEq_start p (by rw [hb₂]; exact List.mem_cons_of_mem _ hp)
          have hq₁mem : q₁ ∈ h₁ :: t₁ := by
            have : q₁ ∈ (h₁ :: t₁).filter (pEq h₁.1) := by
              rw [hb₁]; exact List.mem_cons_self _ _
            exact (List.mem_filter.mp this).1
          have hq₂mem : q₂ ∈ l₂ := by
            have : q₂ ∈ l₂.filter (pEq h₁.1) := by
              rw [hb₂]; exact List.mem_cons_self _ _
            exact (List.mem_filter.mp this).1
          have hq₁wf : h₁.1 ≤ q₁.2 := by
            have := hwf q₁ hq₁mem
            omega
          have hq₂wf : h₁.1 ≤ q₂.2 := by
            have := hwf₂ q₂ hq₂mem
            omega
          have hq₁e : q₁ = (h₁.1, q₁.2) := by
            apply Prod.ext <;> simp [hq₁]
          have hq₂e : q₂ = (h₁.1, q₂.2) := by
            apply Prod.ext <;> simp [hq₂]
          have hb₁form : mergeAux g cur (h₁ :: t₁) =
              if g * 60000 < h₁.1 - cur.2 then
                cur :: mergeAux g (h₁.1, blockMax q₁.2 qs₁)
                  ((h₁ :: t₁).filter (pNe h₁.1))
              else
                mergeAux g (cur.1, blockMax cur.2 ((h₁.1, q₁.2) :: qs₁))
                  ((h₁ :: t₁).filter (pNe h₁.1)) := by
            conv_lhs => rw [hd₁, hb₁, hq₁e]
            exact mergeAux_block g hg h₁.1 q₁.2 qs₁ _ cur hqs₁ hq₁wf
          have hb₂form : mergeAux g cur l₂ =
              if g * 60000 < h₁.1 - cur.2 then
                cur :: mergeAux g (h₁.1, blockMax q₂.2 qs₂)
                  (l₂.filter (pNe h₁.1))
              else
                mergeAux g (cur.1, blockMax cur.2 ((h₁.1, q₂.2) :: qs₂))
                  (l₂.filter (pNe h₁.1)) := by
            conv_lhs => rw [hd₂, hb₂, hq₂e]
            exact mergeAux_block g hg h₁.1 q₂.2 qs₂ _ cur hqs₂ hq₂wf
          have hbm1 : blockMax q₁.2 qs₁ = blockMax q₂.2 qs₂ := by
            have e1 : blockMax h₁.1 (q₁ :: qs₁) = blockMax q₁.2 qs₁ := by
              conv_lhs => rw [hq₁e]
              exact blockMax_head h₁.1 q₁.2 qs₁ hq₁wf
            have e2 : blockMax h₁.1 (q₂ :: qs₂) = blockMax q₂.2 qs₂ := by
              conv_lhs => rw [hq₂e]
              exact blockMax_head h₁.1 q₂.2 qs₂ hq₂wf
            rw [← e1, ← e2]
            exact blockMax_perm h₁.1 hbperm
          have hbm2 : blockMax cur.2 ((h₁.1, q₁.2) :: qs₁) =
              blockMax cur.2 ((h₁.1, q₂.2) :: qs₂) := by
            have := blockMax_perm cur.2 hbperm
            rw [hq₁e, hq₂e] at this
            exact this
          rw [hb₁form, hb₂form, hbm1, hbm2]
          by_cases hc : g * 60000 < h₁.1 - cur.2
          · rw [if_pos hc, if_pos hc, hrec _]
          · rw [if_neg hc, if_neg hc, hrec _]

/-- On a nonempty start-sorted well-formed list, the merge folds the
whole head block into one open session `(s, max of block ends)`. -/
lemma mergeGo_head_form (g : ℤ) (hg : 0 ≤ g) (h : Interval) (t : List Interval)
    (hsort : List.Pairwise (fun a b : Interval => a.1 ≤ b.1) (h :: t))
    (hwf : WFIntervals (h :: t)) :
    mergeGo g (h :: t) =
      mergeAux g (h.1, blockMax h.1 ((h :: t).filter (pEq h.1)))
        ((h :: t).filter (pNe h.1)) := by
  have hmin : ∀ p ∈ h :: t, h.1 ≤ p.1 := by
    intro p hp
    rcases List.mem_cons.mp hp with rfl | hp
    · exact le_refl _
    · exact (List.pairwise_cons.mp hsort).1 p hp
  have hd := sorted_filter_decomp h.1 (h :: t) hsort hmin
  have e1 : List.filter (pEq h.1) (h :: t) = h :: List.filter (pEq h.1) t := by
    rw [List.filter_cons, if_pos (by simp [pEq])]
  have e2 : List.filter (pNe h.1) (h :: t) = List.filter (pNe h.1) t := by
    rw [List.filter_cons, if_neg (by simp [pNe])]
  have ht : t = List.filter (pEq h.1) t ++ List.filter (pNe h.1) t := by
    rw [e1, e2, List.cons_append] at hd
    injection hd with hd1 hd2
  have hwfh : h.1 ≤ h.2 := hwf h (List.mem_cons_self _ _)
  have e3 : blockMax h.1 (h :: List.filter (pEq h.1) t) =
      blockMax h.2 (List.filter (pEq h.1) t) :=
    blockMax_head h.1 h.2 _ hwfh
  show mergeAux g h t = _
  rw [e1, e2, e3]
  conv_lhs => rw [ht]
  exact mergeAux_absorb g (List.filter (pEq h.1) t) h.1 h
    (List.filter (pNe h.1) t) (fun p hp => mem_filter_pEq_start p hp)
    (by omega)

/-- The merge fold is permutation invariant over start-sorted well-formed
lists, heads included. -/
lemma mergeGo_perm_sorted (g : ℤ) (hg : 0 ≤ g) (l₁ l₂ : List Interval)
    (hperm : l₁.Perm l₂)
    (hs₁ : List.Pairwise (fun a b : Interval => a.1 ≤ b.1) l₁)
    (hs₂ : List.Pairwise (fun a b : Interval => a.1 ≤ b.1) l₂)
    (hwf : WFIntervals l₁) :
    mergeGo g l₁ = mergeGo g l₂ := by
  cases l₁ with
  | nil => rw [hperm.symm.eq_nil]
  | cons h₁ t₁ =>
    cases l₂ with
    | nil => exact absurd hperm.eq_nil (List.cons_ne_nil _ _)
    | cons h₂ t₂ =>
      have hwf₂ : WFIntervals (h₂ :: t₂) := wf_of_perm hperm hwf
      have hmin₁ : ∀ p ∈ h₁ :: t₁, h₁.1 ≤ p.1 := by
        intro p hp
        rcases List.mem_cons.mp hp with rfl | hp
        · exact le_refl _
        · exact (List.pairwise_cons.mp hs₁).1 p hp
      have hmin₂ : ∀ p ∈ h₂ :: t₂, h₂.1 ≤ p.1 := by
        intro p hp
        rcases List.mem_cons.mp hp with rfl | hp
        · exact le_refl _
        · exact (List.pairwise_cons.mp hs₂).1 p hp
      have h21 : h₂.1 = h₁.1 := by
        have ha : h₂.1 ≤ h₁.1 :=
          hmin₂ h₁ (hperm.mem_iff.mp (List.mem_cons_self _ _))
        have hb : h₁.1 ≤ h₂.1 :=
          hmin₁ h₂ (hperm.mem_iff.mpr (List.mem_cons_self _ _))
        omega
      rw [mergeGo_head_form g hg h₁ t₁ hs₁ hwf,
        mergeGo_head_form g hg h₂ t₂ hs₂ hwf₂, h21]
      have hbm : blockMax h₁.1 ((h₁ :: t₁).filter (pEq h₁.1)) =
          blockMax h₁.1 ((h₂ :: t₂).filter (pEq h₁.1)) :=
        blockMax_perm h₁.1 (hperm.filter _)
      rw [hbm]
      refine mergeAux_perm_sorted g hg ((h₁ :: t₁).filter (pNe h₁.1)).length
        _ _ _ (le_refl _) (hperm.filter _) ?_ ?_ ?_
      · exact List.Pairwise.sublist (List.filter_sublist _) hs₁
      · exact List.Pairwise.sublist (List.filter_sublist _) hs₂
      · intro p hp
        exact hwf p (List.mem_filter.mp hp).1

/-- C9: the session merger is insensitive to the order of its input —
any permutation of a well-formed interval list merges to the same
session list under the same nonnegative gap tolerance, equal starts with
different ends included. -/
theorem mergeSessions_perm_invariant (l₁ l₂ : List Interval) (g : ℤ)
    (hperm : l₁.Perm l₂) (hwf : WFIntervals l₁) (hg : 0 ≤ g) :
    mergeSessions l₁ g = mergeSessions l₂ g := by
  unfold mergeSessions
  refine mergeGo_perm_sorted g hg _ _ ?_ (sortByStart_sorted l₁)
    (sortByStart_sorted l₂) ?_
  · exact (sortByStart_perm l₁).trans (hperm.trans (sortByStart_perm l₂).symm)
  · exact wf_of_perm (sortByStart_perm l₁).symm hwf

/-- Witness for permutation invariance on two equal-start intervals with
different ends, listed in the two possible orders. -/
theorem mergeSessions_perm_invariant_witness :
    ([((0 : ℤ), (100 : ℤ)), (0, 3600000)]).Perm
      [((0 : ℤ), (3600000 : ℤ)), (0, 100)] ∧
    WFIntervals [((0 : ℤ), (100 : ℤ)), (0, 3600000)] ∧
    (0 : ℤ) ≤ 30 ∧
    mergeSessions [(0, 100), (0, 3600000)] 30 =
      mergeSessions [(0, 3600000), (0, 100)] 30 :=
  ⟨by decide, by unfold WFIntervals; decide, by decide,
    mergeSessions_perm_invariant _ _ 30 (by decide)
      (by unfold WFIntervals; decide) (by decide)⟩

/-- C4: on well-formed intervals and a nonnegative gap tolerance, the
merger's result equals the reference merge that first sorts by start
ascending with ties broken by end ascending. -/
theorem mergeSessions_eq_twoKey (l : List Interval) (g : ℤ) (hg : 0 ≤ g)
    (hwf : WFIntervals l) :
    mergeSessions l g = mergeSessionsTwoKey l g := by
  unfold mergeSessions mergeSessionsTwoKey
  refine mergeGo_perm_sorted g hg _ _ ?_ (sortByStart_sorted l) ?_ ?_
  · exact (sortByStart_perm l).trans (sortTwoKey_perm l).symm
  · refine List.Pairwise.imp ?_ (sortTwoKey_sorted l)
    intro a b hab
    rcases hab with h | ⟨h, _⟩
    · exact le_of_lt h
    · exact le_of_eq h
  · exact wf_of_perm (sortByStart_perm l).symm hwf

/-- Witness for the two-key refinement at a concrete tie-heavy input. -/
theorem mergeSessions_eq_twoKey_witness :
    (0 : ℤ) ≤ 30 ∧
    WFIntervals [((0 : ℤ), (100 : ℤ)), (0, 50), (7200000, 7200000)] ∧
    mergeSessions [(0, 100), (0, 50), (7200000, 7200000)] 30 =
      mergeSessionsTwoKey [(0, 100), (0, 50), (7200000, 7200000)] 30 :=
  ⟨by decide, by unfold WFIntervals; decide,
    mergeSessions_eq_twoKey [(0, 100), (0, 50), (7200000, 7200000)] 30
      (by decide) (by unfold WFIntervals; decide)⟩

/-- C1 (amended): with a reversed range the analytics day loop never
runs, so the call returns a normal result with an empty employees list
instead of failing. -/
theorem presenceAnalytics_reversed_range_empty (table : List LogRow)
    (s e g : ℤ) (h : e < s) :
    presenceAnalytics table s e g =
      { startDate := s, endDate := e, employees := [] } := by
  have hr : rangeDays s e = [] := by
    unfold rangeDays
    have h0 : (e + 1 - s).toNat = 0 := Int.toNat_eq_zero.mpr (by omega)
    rw [h0]
    rfl
  unfold presenceAnalytics accumulateDays
  rw [hr]
  rfl

/-- Witness for the reversed-range behaviour at concrete dates. -/
theorem presenceAnalytics_reversed_range_empty_witness :
    (10 : ℤ) < 20 ∧
    presenceAnalytics [⟨"W", 0, none⟩] 20 10 30 =
      { startDate := 20, endDate := 10, employees := [] } :=
  ⟨by decide, presenceAnalytics_reversed_range_empty [⟨"W", 0, none⟩] 20 10 30
    (by decide)⟩

/-- Counterexample to C1 as stated: a reversed range (`2025-08-05` down
to `2025-08-01`, as day numbers 20 and 10 here) does not fail — even
with a logged event inside the reversed range the call returns a normal
empty result, and no `InvalidRangeError` exists in the code. -/
theorem presenceAnalytics_reversed_range_cex :
    presenceAnalytics
        [⟨"A", 15 * 86400000 + 100, some (15 * 86400000 + 100)⟩] 20 10 30 =
      { startDate := 20, endDate := 10, employees := [] } := by
  decide

lemma clampIntervalToDay_rev_none (a b d : ℤ) (h : b < a) :
    clampIntervalToDay (a, b) d = none := by
  simp only [clampIntervalToDay]
  rw [if_pos]
  have h1 : min b (dayEndMs d) ≤ b := min_le_left _ _
  have h2 : a ≤ max a (dayStartMs d) := le_max_left _ _
  omega

/-- C2 (amended): a raw event whose `LastSeen` precedes its `FirstSeen`
is dropped by the day clamp, so removing such rows leaves the collected
intervals unchanged — one bad row never aborts the batch, but it also
contributes no presence. -/
theorem collectIntervals_ignores_malformed (rows : List LogRow)
    (employeeName : String) (d : ℤ) :
    collectIntervals (rows.filter (fun r => !isMalformedRow r)) employeeName d =
      collectIntervals rows employeeName d := by
  induction rows with
  | nil => rfl
  | cons r rest ih =>
    rw [List.filter_cons]
    by_cases hm : isMalformedRow r
    · rw [if_neg (by simp [hm])]
      have hclamp : clampIntervalToDay (rowInterval r) d = none := by
        unfold isMalformedRow at hm
        cases hls : r.LastSeen with
        | none =>
          rw [hls] at hm
          simp at hm
        | some lv =>
          rw [hls] at hm
          simp only [decide_eq_true_eq] at hm
          have hri : rowInterval r = (r.FirstSeen, lv) := by
            unfold rowInterval
            rw [hls]
            rfl
          rw [hri]
          exact clampIntervalToDay_rev_none _ _ _ hm
      rw [ih]
      simp only [collectIntervals, hclamp]
      rw [ite_self]
    · rw [if_pos (by simp [hm])]
      simp only [collectIntervals, ih]

/-- Counterexample to C2 as stated: the malformed event
(`FirstSeen` 10:00, `LastSeen` 09:43:20 on day 0) is not turned into a
single-point interval at `observedAt` — its clamp is `none`, so the
query finds no interval at all and answers with the no-logs message. -/
theorem malformed_event_dropped_cex :
    getEmployeePresence [⟨"Bob", 36000000, some 35000000⟩] "bob" 0 30 =
      Sum.inl ("bob", 0) ∧
    clampIntervalToDay (rowInterval ⟨"Bob", 36000000, some 35000000⟩) 0 =
      none := by
  exact ⟨by decide, by decide⟩

/-- C7 (amended): merging zero intervals yields zero sessions, and a
reconstruction that collects zero qualifying intervals returns the
`No logs found` message — not a thrown failure, but also not an empty
summary object. -/
theorem getEmployeePresence_empty_message (rows : List LogRow)
    (employeeName : String) (d g : ℤ)
    (h : collectIntervals rows employeeName d = []) :
    getEmployeePresence rows employeeName d g = Sum.inl (employeeName, d) ∧
      mergeSessions [] g = [] := by
  constructor
  · unfold getEmployeePresence
    rw [if_pos h]
  · rfl

/-- Witness for the empty-reconstruction behaviour on an empty log. -/
theorem getEmployeePresence_empty_message_witness :
    collectIntervals [] "alice" 19970 = [] ∧
    (getEmployeePresence [] "alice" 19970 30 = Sum.inl ("alice", 19970) ∧
      mergeSessions [] 30 = []) :=
  ⟨by decide, getEmployeePresence_empty_message [] "alice" 19970 30 (by decide)⟩

/-- Counterexample to C7 as stated: with zero qualifying events the call
returns the no-logs text, not a summary value with an empty session
list. -/
theorem empty_events_not_summary_cex :
    getEmployeePresence [] "bob" 20300 30 = Sum.inl ("bob", 20300) ∧
    (getEmployeePresence [] "bob" 20300 30).isRight = false := by
  exact ⟨by decide, by decide⟩

lemma upsertA_snd_ne_nil {β : Type} :
    ∀ (m : List (String × List β)) (k : String) (v : β),
      (∀ p ∈ m, p.2 ≠ []) → ∀ p ∈ upsertA m k v, p.2 ≠ [] := by
  intro m
  induction m with
  | nil =>
    intro k v _ p hp
    simp only [upsertA, List.mem_singleton] at hp
    subst hp
    simp
  | cons q rest ih =>
    intro k v hm p hp
    obtain ⟨k', vs⟩ := q
    simp only [upsertA] at hp
    by_cases hk : k' = k
    · rw [if_pos hk] at hp
      rcases List.mem_cons.mp hp with rfl | hp
      · simp
      · exact hm p (List.mem_cons_of_mem _ hp)
    · rw [if_neg hk] at hp
      rcases List.mem_cons.mp hp with rfl | hp
      · exact hm (k', vs) (List.mem_cons_self _ _)
      · exact ih k v (fun q hq => hm q (List.mem_cons_of_mem _ hq)) p hp

lemma groupRows_snd_ne_nil (rows : List LogRow) (d : ℤ) :
    ∀ p ∈ groupRows rows d, p.2 ≠ [] := by
  have gen : ∀ (rs : List LogRow) (m : List (String × List Interval)),
      (∀ p ∈ m, p.2 ≠ []) → ∀ p ∈ rs.foldl (groupStep d) m, p.2 ≠ [] := by
    intro rs
    induction rs with
    | nil => intro m hm; exact hm
    | cons r rest ih =>
      intro m hm
      rw [List.foldl_cons]
      refine ih (groupStep d m r) ?_
      unfold groupStep
      by_cases he : isExcludedName (normalizeName r.Name)
      · rw [if_pos he]
        exact hm
      · rw [if_neg he]
        cases hc : clampIntervalToDay (rowInterval r) d with
        | none => exact hm
        | some c => exact upsertA_snd_ne_nil m _ c hm
  exact gen rows []
    (by intro p hp; simp at hp)

lemma mergeSessions_ne_nil (l : List Interval) (g : ℤ) (h : l ≠ []) :
    mergeSessions l g ≠ [] := by
  unfold mergeSessions
  cases hs : sortByStart l with
  | nil =>
    have := sortByStart_perm l
    rw [hs] at this
    exact absurd this.symm.eq_nil h
  | cons f r =>
    simp only [mergeGo]
    exact mergeAux_ne_nil g r f

/-- C10: every entry of the daily report carries at least one session,
hence a present `first_in` and `last_out` — an identity enters the
report only when one of its events survives clamping to the day. -/
theorem dailyReport_entries_nonempty (rows : List LogRow) (d g : ℤ) :
    ∀ e ∈ (getDailyReport rows d g).employees,
      e.sessions ≠ [] ∧ e.first_in ≠ none ∧ e.last_out ≠ none := by
  intro e he
  simp only [getDailyReport] at he
  have he' : e ∈ (groupRows rows d).map (mkEmployeeDay g) :=
    (List.perm_insertionSort _ _).mem_iff.mp he
  obtain ⟨p, hp, rfl⟩ := List.mem_map.mp he'
  have hpne : p.2 ≠ [] := groupRows_snd_ne_nil rows d p hp
  have hmne : mergeSessions p.2 g ≠ [] := mergeSessions_ne_nil p.2 g hpne
  simp only [mkEmployeeDay]
  cases hmm : mergeSessions p.2 g with
  | nil => exact absurd hmm hmne
  | cons a as =>
    refine ⟨by simp [hmm], by simp [hmm], ?_⟩
    simp [List.getLast?_eq_none_iff]

/-- Witness for the nonempty-entries invariant on a one-row day. -/
theorem dailyReport_entries_nonempty_witness :
    sampleEmployeeDay ∈
      (getDailyReport [⟨"A", 36000000, some 36000000⟩] 0 30).employees ∧
    (sampleEmployeeDay.sessions ≠ [] ∧ sampleEmployeeDay.first_in ≠ none ∧
      sampleEmployeeDay.last_out ≠ none) :=
  ⟨by decide, dailyReport_entries_nonempty [⟨"A", 36000000, some 36000000⟩] 0 30
    _ (by decide)⟩

lemma firstInLeB_total (a b : Option ℤ) :
    firstInLeB a b = true ∨ firstInLeB b a = true := by
  cases a <;> cases b <;> simp [firstInLeB] <;> omega

lemma firstInLeB_trans (a b c : Option ℤ) (hab : firstInLeB a b = true)
    (hbc : firstInLeB b c = true) : firstInLeB a c = true := by
  cases a <;> cases b <;> cases c <;> simp_all [firstInLeB] <;> omega

/-- C5 (amended): the daily report is sorted by the `first_in` key (a
missing `first_in` compares lowest); ties on equal `first_in` are left
in grouping order and are not re-ordered by identity name. -/
theorem dailyReport_sorted_by_firstIn (rows : List LogRow) (d g : ℤ) :
    List.Pairwise
      (fun a b : EmployeeDay => firstInLeB a.first_in b.first_in = true)
      ((getDailyReport rows d g).employees) := by
  haveI : IsTotal EmployeeDay
      (fun a b : EmployeeDay => firstInLeB a.first_in b.first_in = true) :=
    ⟨fun a b => firstInLeB_total a.first_in b.first_in⟩
  haveI : IsTrans EmployeeDay
      (fun a b : EmployeeDay => firstInLeB a.first_in b.first_in = true) :=
    ⟨fun a b c hab hbc => firstInLeB_trans _ _ _ hab hbc⟩
  simp only [getDailyReport]
  exact List.sorted_insertionSort _ _

/-- Counterexample to C5 as stated: rows ordered by raw `Name` whose
normalized names invert that order and whose sessions tie on `first_in`
stay in grouping order (`Az` before `A b`), so the report is not
secondarily sorted by identity name ascending. -/
theorem dailyReport_tiebreak_cex :
    ¬ List.Pairwise (fun a b : EmployeeDay => claimReportLeB a b = true)
      ((getDailyReport [⟨"A (a)z", 36000000, some 36000000⟩,
          ⟨"A b", 36000000, some 36000000⟩] 0 30).employees) := by
  decide

lemma upsertA_keys {β : Type} :
    ∀ (m : List (String × List β)) (k : String) (v : β),
      (upsertA m k v).map Prod.fst = insFirst (m.map Prod.fst) k := by
  intro m
  induction m with
  | nil =>
    intro k v
    simp [upsertA, insFirst]
  | cons q rest ih =>
    intro k v
    obtain ⟨k', vs⟩ := q
    by_cases hk : k' = k
    · subst hk
      simp [upsertA, insFirst]
    · simp only [upsertA, if_neg hk, List.map_cons, ih]
      simp only [insFirst, List.mem_cons]
      by_cases hmem : k ∈ rest.map Prod.fst
      · rw [if_pos hmem, if_pos (Or.inr hmem)]
      · rw [if_neg hmem, if_neg (by
          intro hor
          rcases hor with h | h
          · exact hk h.symm
          · exact hmem h)]
        simp

lemma foldl_upsertA_keys {α β : Type} (key : α → String) (val : α → β) :
    ∀ (es : List α) (m : List (String × List β)),
      ((es.foldl (fun m' x => upsertA m' (key x) (val x)) m).map Prod.fst) =
        (es.map key).foldl insFirst (m.map Prod.fst) := by
  intro es
  induction es with
  | nil => intro m; rfl
  | cons x es ih =>
    intro m
    simp only [List.foldl_cons, List.map_cons]
    rw [ih, upsertA_keys]

lemma analyticsDayStep_keys (table : List LogRow) (g : ℤ)
    (m : List (String × List DayEntry)) (d : ℤ) :
    (analyticsDayStep table g m d).map Prod.fst =
      (dailyNames table g d).foldl insFirst (m.map Prod.fst) := by
  unfold analyticsDayStep dailyNames
  exact foldl_upsertA_keys (fun e : EmployeeDay => e.name)
    (fun e : EmployeeDay =>
      { date := d, first_in := e.first_in, last_out := e.last_out
        total_ms := e.total_ms })
    _ m

lemma accumulateDays_keys (table : List LogRow) (g : ℤ) :
    ∀ (days : List ℤ) (m : List (String × List DayEntry)),
      ((days.foldl (analyticsDayStep table g) m).map Prod.fst) =
        (namesOfDays table g days).foldl insFirst (m.map Prod.fst) := by
  intro days
  induction days with
  | nil => intro m; rfl
  | cons d ds ih =>
    intro m
    simp only [List.foldl_cons, namesOfDays]
    rw [ih, List.foldl_append, analyticsDayStep_keys]

/-- C6 (amended): the range-analytics summaries are emitted in
first-appearance order — the first-occurrence deduplication of the daily
report names taken day by day — not sorted by identity name. -/
theorem presenceAnalytics_first_occurrence_order (table : List LogRow)
    (s e g : ℤ) :
    (presenceAnalytics table s e g).employees.map (fun p => p.name) =
      firstOccur (rangeNames table s e g) := by
  unfold presenceAnalytics rangeNames firstOccur
  rw [List.map_map]
  show (accumulateDays table g (rangeDays s e)).map Prod.fst = _
  unfold accumulateDays
  exact accumulateDays_keys table g (rangeDays s e) []

/-- Counterexample to C6 as stated: on one day with employee `B` first
in at 09:00 and `A` at 10:00, the analytics summary lists `B` before
`A`, so the output is not sorted by identity name ascending. -/
theorem presenceAnalytics_not_name_sorted_cex :
    ¬ List.Pairwise (fun a b : RangeEmployee => nameLeB a b = true)
      ((presenceAnalytics [⟨"A", 36000000, some 36000000⟩,
          ⟨"B", 32400000, some 32400000⟩] 0 0 30).employees) := by
  decide

end DavaoWifi
